import Mathlib

/-!
Shallow embedding of `tools/last_user_activity.py`.

The script enumerates members of a fixed list of GitHub organizations,
queries each member's most recent public activity timestamp, and prints a
recency-sorted report.  Network responses are modelled by oracles: a rate
limit response, a per-organization per-page member listing response, and a
per-user events response.  A response of `none` models a non-success
(status ≠ 200) HTTP response; `some v` models a 200 response whose JSON
decoded to `v`.  Console output of informational text is not modelled
(the spec excludes console formatting from scope); the warning/abort
control decisions of `main` are modelled as booleans.
-/

namespace LastUserActivity

/-- Member object of the members-listing JSON; the script only reads the
`login` field (line 117-119 of the source). -/
structure Member where
  login : String
deriving DecidableEq, Repr

/-- Event object of the public-events JSON; the script only reads the
`created_at` field (line 92). -/
structure Event where
  created_at : String
deriving DecidableEq, Repr

/-- Fields of `resources.core` in the rate-limit JSON read by `main`
(lines 101-102). -/
structure RateData where
  remaining : Int
  reset : Int
deriving DecidableEq, Repr

/-- Python `datetime` value as produced by `datetime.fromisoformat`:
calendar components plus an optional fixed UTC offset in minutes
(`tzOffsetMinutes = none` models a naive datetime). -/
structure PyDatetime where
  year : Nat
  month : Nat
  day : Nat
  hour : Nat
  minute : Nat
  second : Nat
  tzOffsetMinutes : Option Int
deriving DecidableEq, Repr

/-- Numeric value of a decimal digit character, `none` otherwise. -/
def charDigit (c : Char) : Option Nat :=
  if c.isDigit then some (c.toNat - 48) else none

/-- Two-digit decimal number from two characters. -/
def parse2 (a b : Char) : Option Nat := do
  let x ← charDigit a
  let y ← charDigit b
  pure (10 * x + y)

/-- Four-digit decimal number from four characters. -/
def parse4 (a b c d : Char) : Option Nat := do
  let x ← charDigit a
  let y ← charDigit b
  let z ← charDigit c
  let w ← charDigit d
  pure (1000 * x + 100 * y + 10 * z + w)

/-- UTC-offset suffix of an ISO-8601 string: empty means a naive datetime,
`±HH:MM` a fixed offset in minutes; anything else is malformed. -/
def parseTz : List Char → Option (Option Int)
  | [] => some none
  | ['+', a, b, ':', c, d] => do
      let hh ← parse2 a b
      let mm ← parse2 c d
      if hh ≤ 23 ∧ mm ≤ 59 then pure (some ((hh : Int) * 60 + mm)) else none
  | ['-', a, b, ':', c, d] => do
      let hh ← parse2 a b
      let mm ← parse2 c d
      if hh ≤ 23 ∧ mm ≤ 59 then pure (some (-((hh : Int) * 60 + mm))) else none
  | _ => none

/-- Proleptic Gregorian leap-year test, as in Python's `calendar.isleap`. -/
def isLeap (y : Nat) : Bool :=
  y % 4 == 0 && (y % 100 != 0 || y % 400 == 0)

/-- Length of a month (1-12). -/
def daysInMonth (leap : Bool) : Nat → Nat
  | 1 => 31
  | 2 => if leap then 29 else 28
  | 3 => 31
  | 4 => 30
  | 5 => 31
  | 6 => 30
  | 7 => 31
  | 8 => 31
  | 9 => 30
  | 10 => 31
  | 11 => 30
  | 12 => 31
  | _ => 0

/-- Days in the year strictly before month `m`. -/
def daysBeforeMonth (leap : Bool) : Nat → Nat
  | 0 => 0
  | 1 => 0
  | m + 1 => daysBeforeMonth leap m + daysInMonth leap m

/-- Python's `date.toordinal`: day number of the proleptic Gregorian
calendar, day 1 being January 1 of year 1. -/
def toOrdinal (y m d : Nat) : Nat :=
  365 * (y - 1) + (y - 1) / 4 - (y - 1) / 100 + (y - 1) / 400
    + daysBeforeMonth (isLeap y) m + d

/-- Absolute instant of a datetime in seconds on a linear time scale;
aware datetimes are shifted by their UTC offset, exactly as Python's
comparison of aware `datetime`s compares their UTC-normalized values.
The program only ever compares aware datetimes (every stored timestamp is
parsed after the `Z` → `+00:00` normalization); `getD 0` merely totalizes
the function on naive values. -/
def dtInstant (dt : PyDatetime) : Int :=
  (toOrdinal dt.year dt.month dt.day : Int) * 86400
    + dt.hour * 3600 + dt.minute * 60 + dt.second
    - 60 * dt.tzOffsetMinutes.getD 0

/-- Model of `datetime.fromisoformat`, restricted to the shape of
timestamps the script feeds it: `YYYY-MM-DDTHH:MM:SS` followed by an
optional `±HH:MM` offset.  Malformed input yields `none`, modelling the
`ValueError` the Python function raises. -/
def fromisoformat (s : String) : Option PyDatetime :=
  match s.toList with
  | y1 :: y2 :: y3 :: y4 :: '-' :: mo1 :: mo2 :: '-' :: d1 :: d2 :: 'T' ::
    h1 :: h2 :: ':' :: mi1 :: mi2 :: ':' :: s1 :: s2 :: rest => do
      let y ← parse4 y1 y2 y3 y4
      let mo ← parse2 mo1 mo2
      let d ← parse2 d1 d2
      let h ← parse2 h1 h2
      let mi ← parse2 mi1 mi2
      let se ← parse2 s1 s2
      let tz ← parseTz rest
      if 1 ≤ y ∧ 1 ≤ mo ∧ mo ≤ 12 ∧ 1 ≤ d ∧ d ≤ daysInMonth (isLeap y) mo
          ∧ h ≤ 23 ∧ mi ≤ 59 ∧ se ≤ 59 then
        pure ⟨y, mo, d, h, mi, se, tz⟩
      else none
  | _ => none

/-- Python's `s.replace('Z', '+00:00')` (line 92): substitutes every
occurrence of the character `Z`, not only a trailing one. -/
def replaceZ (s : String) : String :=
  ⟨s.toList.flatMap fun c => if c = 'Z' then "+00:00".toList else [c]⟩

/-- Modelled from the spec: replacement of only a trailing `Z` suffix by
`+00:00` (the spec describes the normalization as acting on the trailing
`Z` that denotes UTC).  Used to compare the code's `replaceZ` against the
spec's description. -/
def replaceTrailingZ (s : String) : String :=
  if s.toList.getLast? = some 'Z' then ⟨s.toList.dropLast ++ "+00:00".toList⟩
  else s

instance {ε α : Type} [DecidableEq ε] [DecidableEq α] : DecidableEq (Except ε α) := fun
  | .error a, .error b =>
      if h : a = b then .isTrue (by rw [h]) else .isFalse (by simp [h])
  | .error _, .ok _ => .isFalse (by simp)
  | .ok _, .error _ => .isFalse (by simp)
  | .ok a, .ok b =>
      if h : a = b then .isTrue (by rw [h]) else .isFalse (by simp [h])

/-- Embedding of `get_user_activity` (lines 73-93) as a function of the
events-endpoint response for the queried user.  `none` response models a
non-200 status; the function then falls through to `return None`.  A 200
response with an empty array is falsy in Python, so it also returns
`None`.  Otherwise the first event's `created_at` is normalized and
parsed; a parse failure is an uncaught `ValueError`, modelled by
`Except.error`. -/
def get_user_activity (resp : Option (List Event)) : Except Unit (Option PyDatetime) :=
  match resp with
  | some (e :: _) =>
      match fromisoformat (replaceZ e.created_at) with
      | some dt => .ok (some dt)
      | none => .error ()
  | some [] => .ok none
  | none => .ok none

/-- Configured organization list (lines 13-30 of the source). -/
def orgs : List String :=
  ["binder-examples", "binderhub-ci-repos", "ipython", "jupyter",
   "jupyter-book", "jupyter-governance", "jupyter-incubator",
   "jupyter-server", "jupyter-standards", "jupyter-widgets", "jupyterhub",
   "jupyterlab", "jupyter-xeus", "jupytercon", "voila-dashboards",
   "voila-gallery"]

/-- URL built by the f-string of line 59: page size is fixed at 100. -/
def memberPageURL (org : String) (page : Nat) : String :=
  "https://api.github.com/orgs/" ++ org ++ "/members?page=" ++ toString page
    ++ "&per_page=100"

/-- URL built by the f-string of line 87. -/
def userEventsURL (username : String) : String :=
  "https://api.github.com/users/" ++ username ++ "/events/public"

/-- URL of line 98. -/
def rateLimitURL : String :=
  "https://api.github.com/rate_limit"

/-- Pagination loop of `get_org_members` (lines 56-71).  `fetch p` is the
response to the page-`p` request: `none` a non-200 status, `some l` a 200
response listing `l`.  Returns the accumulated members together with the
list of page numbers actually requested.  The Python loop `for page in
count(1)` is unbounded; `fuel` is an upper bound on the number of
iterations, supplied by each theorem, so that runs in which some page is
eventually empty or failing (as the platform guarantees) are modelled
exactly. -/
def get_org_members_trace (fetch : Nat → Option (List Member)) :
    Nat → Nat → List Member × List Nat
  | _, 0 => ([], [])
  | page, fuel + 1 =>
    match fetch page with
    | none => ([], [page])
    | some [] => ([], [page])
    | some ms =>
      let r := get_org_members_trace fetch (page + 1) fuel
      (ms ++ r.1, page :: r.2)

/-- Members returned by `get_org_members`, starting at page 1. -/
def get_org_members (fetch : Nat → Option (List Member)) (fuel : Nat) :
    List Member :=
  (get_org_members_trace fetch 1 fuel).1

/-- Logins of a member list. -/
def logins (l : List Member) : List String :=
  l.map Member.login

/-- One iteration of the aggregation loop body (lines 116-119): ensure the
login has an entry, then append `org` to it — unconditionally, exactly as
`all_members[member["login"]].append(org)` does.  The Python dict is
modelled as an association list in insertion order: a new key is appended
at the end, an existing key is updated in place. -/
def dictAppend (m : List (String × List String)) (l : String) (o : String) :
    List (String × List String) :=
  match List.lookup l m with
  | some _ => m.map fun p => if p.1 = l then (p.1, p.2 ++ [o]) else p
  | none => m ++ [(l, [o])]

/-- Keys of the association list, in insertion order (Python dict
iteration order). -/
def keys (m : List (String × List String)) : List String :=
  m.map Prod.fst

/-- Inner loop of lines 116-119 over one organization's member list. -/
def processOrg (m : List (String × List String)) (org : String)
    (members : List Member) : List (String × List String) :=
  members.foldl (fun acc mem => dictAppend acc mem.login org) m

/-- Outer aggregation loop of lines 113-119, given each organization's
already-enumerated member list. -/
def build_all_members (orgMembers : String → List Member)
    (os : List String) : List (String × List String) :=
  os.foldl (fun m org => processOrg m org (orgMembers org)) []

/-- Sort key of line 135: the activity timestamp of a
(username, datetime, organizations) triple. -/
def actKey (x : String × PyDatetime × List String) : Int :=
  dtInstant x.2.1

/-- Insertion of one element into a descending-sorted list, placing `x`
before the first element whose key is at most `actKey x`.  Skipped
elements have strictly greater keys, so equal-key elements keep their
original relative order: this is the behavior of Python's stable
`sorted(..., reverse=True)`. -/
def insertDesc (x : String × PyDatetime × List String) :
    List (String × PyDatetime × List String) →
    List (String × PyDatetime × List String)
  | [] => [x]
  | y :: ys => if actKey y ≤ actKey x then x :: y :: ys else y :: insertDesc x ys

/-- Model of `sorted(user_activities, key=lambda x: x[1], reverse=True)`
(line 135): the unique stable descending sort of the input. -/
def sortDesc (l : List (String × PyDatetime × List String)) :
    List (String × PyDatetime × List String) :=
  l.foldr insertDesc []

/-- Model of `asyncio.gather` (line 127): tasks complete in an arbitrary
schedule order, each completion storing its value in the slot of its task
index; the returned list reads the slots back in task order, which is how
`gather` orders its results regardless of completion order.  A slot no
schedule entry touched stays `none` (a task that never completed; with
any schedule covering all indices, every slot is filled). -/
def gatherSched {β : Type} (run : Nat → β) (n : Nat) (sched : List Nat) :
    List (Option β) :=
  let final := sched.foldl
    (fun acc i => fun j => if j = i then some (run i) else acc j)
    (fun _ => none)
  (List.range n).map final

/-- Whether an `Except` is an uncaught exception. -/
def isErr : Except Unit (Option PyDatetime) → Bool
  | .error _ => true
  | .ok _ => false

/-- Value of a completed activity lookup (`.error` never reaches this in
`runMainSched`, which aborts the whole run on any exception first). -/
def exceptValue : Except Unit (Option PyDatetime) → Option PyDatetime
  | .ok v => v
  | .error _ => none

/-- Responses of the network for one run: the rate-limit response, the
member-listing response per organization and page, and the public-events
response per username.  `none` models a non-success status. -/
structure Oracles where
  rate : Option RateData
  memberPages : String → Nat → Option (List Member)
  events : String → Option (List Event)

/-- One GET request the script can issue. -/
inductive Request where
  | rateLimit : Request
  | orgMembersPage (org : String) (page : Nat) : Request
  | userEvents (username : String) : Request
deriving DecidableEq, Repr

/-- Observable outcome of one run of `main`: the warning/abort decisions
of the rate-limit check, the requests issued, the gathered
(username, timestamp, organizations) triples in gather order, the same
triples after the descending sort, and the printed per-user lines, each
reduced to (username, seconds elapsed since the activity, comma-joined
organization list) — the remaining rendering is pure formatting. -/
structure RunResult where
  warned : Bool
  aborted : Bool
  requests : List Request
  gathered : List (String × PyDatetime × List String)
  report : List (String × PyDatetime × List String)
  lines : List (String × Int × String)
deriving DecidableEq, Repr

/-- Per-organization enumeration performed by line 115. -/
def orgMembersRun (o : Oracles) (fuel : Nat) (org : String) :
    List Member × List Nat :=
  get_org_members_trace (o.memberPages org) 1 fuel

/-- The `all_members` dict after the loop of lines 113-119. -/
def allMembersRun (o : Oracles) (fuel : Nat) : List (String × List String) :=
  build_all_members (fun org => (orgMembersRun o fuel org).1) orgs

/-- Usernames in dict iteration order (line 123). -/
def usernamesRun (o : Oracles) (fuel : Nat) : List String :=
  keys (allMembersRun o fuel)

/-- Member-listing requests issued during enumeration. -/
def enumRequests (o : Oracles) (fuel : Nat) : List Request :=
  orgs.flatMap fun org =>
    ((orgMembersRun o fuel org).2).map (Request.orgMembersPage org)

/-- Printed line of lines 136-138, reduced to its data: username, the
timedelta `datetime.now(tz) - last_activity` in seconds against the
current instant `now`, and the comma-joined organization list. -/
def lineOf (now : Int) (t : String × PyDatetime × List String) :
    String × Int × String :=
  (t.1, now - dtInstant t.2.1, String.intercalate ", " t.2.2)

/-- The gathered per-user triples as a function of the username list
alone: with any complete schedule the gather step produces exactly
this. -/
def canonGathered (o : Oracles) (fuel : Nat) :
    List (String × PyDatetime × List String) :=
  (usernamesRun o fuel).filterMap fun u =>
    match exceptValue (get_user_activity (o.events u)) with
    | some dt => some (u, dt, (List.lookup u (allMembersRun o fuel)).getD [])
    | none => none

/-- Warning decision of lines 106-107: a 200 rate-limit response with
`remaining < 100` prints a warning; a non-200 response skips the check
body entirely. -/
def rateWarned (o : Oracles) : Bool :=
  match o.rate with
  | some rd => decide (rd.remaining < 100)
  | none => false

/-- Abort decision of lines 108-110: inside the `remaining < 100` branch,
`remaining < 10` makes `main` return. -/
def rateAborted (o : Oracles) : Bool :=
  match o.rate with
  | some rd => decide (rd.remaining < 100) && decide (rd.remaining < 10)
  | none => false

/-- All requests issued by a non-aborted run, in order: the rate-limit
check, the member-listing pages, then one events request per username. -/
def mainRequests (o : Oracles) (fuel : Nat) : List Request :=
  Request.rateLimit ::
    (enumRequests o fuel ++ (usernamesRun o fuel).map Request.userEvents)

/-- Whether any activity task raises an uncaught exception (a malformed
`created_at`); `asyncio.gather` then propagates it out of `main`. -/
def anyErr (o : Oracles) (fuel : Nat) : Bool :=
  (usernamesRun o fuel).any fun u => isErr (get_user_activity (o.events u))

/-- Lines 122-133: tasks are created in username order (line 123-125),
gathered under completion schedule `sched` (line 127), results are paired
positionally with the usernames (line 131's `zip`), and users whose
lookup produced `None` are dropped by line 132's truthiness test; line
133 reads back `all_members[username]`. -/
def gatheredSched (o : Oracles) (fuel : Nat) (sched : List Nat) :
    List (String × PyDatetime × List String) :=
  ((usernamesRun o fuel).zip
      (gatherSched
        (fun i => exceptValue (get_user_activity (o.events ((usernamesRun o fuel).getD i ""))))
        (usernamesRun o fuel).length sched)).filterMap fun p =>
    match p.2 with
    | some (some dt) => some (p.1, dt, (List.lookup p.1 (allMembersRun o fuel)).getD [])
    | _ => none

/-- Embedding of `main` (lines 95-138).  The rate-limit request is issued
first (line 98); on a 200 response with `remaining < 100` a warning is
printed, and with `remaining < 10` the run aborts (`return`) with no
further request; on a non-200 response the check body is skipped and the
run proceeds.  Enumeration then builds `all_members` sequentially over
`orgs`; one activity task per username is gathered (an uncaught parse
exception in any task aborts the run, modelled by `.error`); the
surviving (username, timestamp, organizations) triples are printed sorted
by timestamp descending. -/
def runMainSched (o : Oracles) (fuel : Nat) (now : Int) (sched : List Nat) :
    Except Unit RunResult :=
  if rateAborted o then
    .ok ⟨rateWarned o, true, [Request.rateLimit], [], [], []⟩
  else if anyErr o fuel then
    .error ()
  else
    .ok ⟨rateWarned o, false, mainRequests o fuel, gatheredSched o fuel sched,
         sortDesc (gatheredSched o fuel sched),
         (sortDesc (gatheredSched o fuel sched)).map (lineOf now)⟩

/-- The run with the canonical schedule (tasks complete in launch order);
by `runMainSched`'s schedule-insensitivity this is the outcome of every
complete schedule. -/
def runMain (o : Oracles) (fuel : Nat) (now : Int) : Except Unit RunResult :=
  runMainSched o fuel now (List.range (usernamesRun o fuel).length)

/-- Sample parsed timestamp used by concrete test runs. -/
def sampleDt : PyDatetime := ⟨2024, 1, 2, 3, 4, 5, some 0⟩

/-- Sample events response: one event with a `Z`-suffixed timestamp. -/
def sampleEvents : List Event := [⟨"2024-01-02T03:04:05Z"⟩]

/-- Sample member-listing oracle: only `ipython` has members (`u1`, `u2`
on page 1); every other page is empty. -/
def sampleMembersOracle : String → Nat → Option (List Member) :=
  fun org p => if org = "ipython" ∧ p = 1 then some [⟨"u1"⟩, ⟨"u2"⟩] else some []

/-- Healthy run: high quota, two members, one event each. -/
def sampleOracle : Oracles :=
  ⟨some ⟨5000, 0⟩, sampleMembersOracle, fun _ => some sampleEvents⟩

/-- Same run with critically low quota. -/
def lowQuotaOracle : Oracles :=
  ⟨some ⟨5, 0⟩, sampleMembersOracle, fun _ => some sampleEvents⟩

/-- Same run with a failing rate-limit endpoint. -/
def noRateOracle : Oracles :=
  ⟨none, sampleMembersOracle, fun _ => some sampleEvents⟩

/-- Same run where `u2` has an empty public-event feed. -/
def emptyEventsOracle : Oracles :=
  ⟨some ⟨5000, 0⟩, sampleMembersOracle,
   fun u => if u = "u2" then some [] else some sampleEvents⟩

/-- Value of a dict entry after appending the organizations `fs` for a
user whose previous entry was `v` (absent if `v = none` and `fs = []`). -/
def optExtend (v : Option (List String)) (fs : List String) :
    Option (List String) :=
  if fs = [] then v else some (v.getD [] ++ fs)

/-! Pagination lemmas. -/

lemma trace_pages (L : List (List Member)) (fetch : Nat → Option (List Member))
    (start fuel : Nat)
    (hpages : ∀ i, i < L.length → fetch (start + i) = L[i]?)
    (hne : ∀ l ∈ L, l ≠ [])
    (hstop : fetch (start + L.length) = none ∨ fetch (start + L.length) = some [])
    (hfuel : L.length + 1 ≤ fuel) :
    get_org_members_trace fetch start fuel
      = (L.flatten, List.range' start (L.length + 1)) := by
  induction L generalizing start fuel with
  | nil =>
    obtain ⟨f, rfl⟩ : ∃ f, fuel = f + 1 := ⟨fuel - 1, by omega⟩
    rcases hstop with h | h <;> simp_all [get_org_members_trace, List.range']
  | cons l L ih =>
    obtain ⟨f, rfl⟩ : ∃ f, fuel = f + 1 := ⟨fuel - 1, by omega⟩
    have h0 : fetch start = some l := by simpa using hpages 0 (by simp)
    rcases l with _ | ⟨m, ms⟩
    · exact absurd rfl (hne [] (by simp))
    · have ihres := ih (start + 1) f
        (fun i hi => by
          have := hpages (i + 1) (by simpa using Nat.succ_lt_succ hi)
          simpa [Nat.add_assoc, Nat.add_comm 1 i] using this)
        (fun x hx => hne x (by simp [hx]))
        (by
          have := hstop
          simpa [Nat.add_assoc, Nat.add_comm 1 L.length] using this)
        (by simp only [List.length_cons] at hfuel; omega)
      simp [get_org_members_trace, h0, ihres, List.range'_succ]

/-! Gather lemmas: the join of the task batch is insensitive to the
completion schedule, because each completion writes into the slot of its
task index and the result list is read back in task order. -/

lemma gatherSched_lookup {β : Type} (run : Nat → β) (sched : List Nat)
    (acc : Nat → Option β) (j : Nat) :
    sched.foldl (fun a i => fun k => if k = i then some (run i) else a k) acc j
      = if j ∈ sched then some (run j) else acc j := by
  induction sched generalizing acc with
  | nil => simp
  | cons i rest ih =>
    simp only [List.foldl_cons, ih, List.mem_cons]
    by_cases hj : j ∈ rest
    · simp [hj]
    · by_cases hji : j = i <;> simp [hj, hji]

lemma gatherSched_complete {β : Type} (run : Nat → β) (n : Nat)
    (sched : List Nat) (hc : ∀ i, i < n → i ∈ sched) :
    gatherSched run n sched = (List.range n).map fun i => some (run i) := by
  unfold gatherSched
  apply List.map_congr_left
  intro i hi
  rw [gatherSched_lookup]
  simp [hc i (List.mem_range.mp hi)]

lemma zip_gather {β : Type} (h : String → β) (us : List String) :
    us.zip ((List.range us.length).map fun i => some (h (us.getD i "")))
      = us.map fun u => (u, some (h u)) := by
  induction us with
  | nil => simp
  | cons u rest ih =>
    simp only [List.length_cons, List.range_succ_eq_map, List.map_cons,
      List.map_map, List.zip_cons_cons, List.getD_cons_zero, List.map_cons]
    refine congrArg (List.cons _) ?_
    simpa [Function.comp_def, List.getElem?_cons_succ] using ih

lemma gatheredSched_complete (o : Oracles) (fuel : Nat) (sched : List Nat)
    (hc : ∀ i, i < (usernamesRun o fuel).length → i ∈ sched) :
    gatheredSched o fuel sched = canonGathered o fuel := by
  unfold gatheredSched canonGathered
  have hz := zip_gather (fun u => exceptValue (get_user_activity (o.events u)))
    (usernamesRun o fuel)
  rw [gatherSched_complete _ _ _ hc, hz, List.filterMap_map]
  congr 1
  funext u
  simp only [Function.comp_apply]
  cases exceptValue (get_user_activity (o.events u)) <;> rfl

lemma runMainSched_canon (o : Oracles) (fuel : Nat) (now : Int)
    (sched : List Nat)
    (hc : ∀ i, i < (usernamesRun o fuel).length → i ∈ sched) :
    runMainSched o fuel now sched = runMain o fuel now := by
  unfold runMain runMainSched
  rw [gatheredSched_complete o fuel sched hc,
    gatheredSched_complete o fuel _ (fun i hi => List.mem_range.mpr hi)]

lemma runMain_ok_cases (o : Oracles) (fuel : Nat) (now : Int) (r : RunResult)
    (h : runMain o fuel now = .ok r) :
    (rateAborted o = true
      ∧ r = ⟨rateWarned o, true, [Request.rateLimit], [], [], []⟩)
    ∨ (rateAborted o = false ∧ anyErr o fuel = false
      ∧ r = ⟨rateWarned o, false, mainRequests o fuel, canonGathered o fuel,
          sortDesc (canonGathered o fuel),
          (sortDesc (canonGathered o fuel)).map (lineOf now)⟩) := by
  unfold runMain runMainSched at h
  rw [gatheredSched_complete o fuel _ (fun i hi => List.mem_range.mpr hi)] at h
  by_cases ha : rateAborted o = true
  · left
    simp only [ha, if_true] at h
    exact ⟨ha, by simpa using h.symm⟩
  · right
    by_cases he : anyErr o fuel = true
    · simp [ha, he] at h
    · simp only [ha, he, if_false, Bool.not_eq_true] at h
      refine ⟨by simpa using ha, by simpa using he, ?_⟩
      simpa using h.symm

/-! Association-list lemmas about the `all_members` dict. -/

lemma lookup_eq_none_iff (u : String) (m : List (String × List String)) :
    List.lookup u m = none ↔ u ∉ keys m := by
  induction m with
  | nil => simp [keys]
  | cons p rest ih =>
    obtain ⟨k, v⟩ := p
    by_cases h : u = k
    · subst h
      simp [List.lookup_cons, keys]
    · simp [List.lookup_cons, beq_false_of_ne h, keys, h] at ih ⊢
      simpa [keys] using ih

lemma lookup_append_new (m : List (String × List String)) (l : String)
    (v : List String) (hm : List.lookup l m = none) :
    List.lookup l (m ++ [(l, v)]) = some v := by
  induction m with
  | nil => simp [List.lookup_cons]
  | cons p rest ih =>
    obtain ⟨k, w⟩ := p
    by_cases h : l = k
    · subst h; simp [List.lookup_cons] at hm
    · simp only [List.cons_append, List.lookup_cons, beq_false_of_ne h] at hm ⊢
      exact ih hm

lemma lookup_append_other (m : List (String × List String)) (l u : String)
    (v : List String) (h : u ≠ l) :
    List.lookup u (m ++ [(l, v)]) = List.lookup u m := by
  induction m with
  | nil => simp [List.lookup_cons, beq_false_of_ne h]
  | cons p rest ih =>
    obtain ⟨k, w⟩ := p
    by_cases hk : u = k
    · subst hk; simp [List.lookup_cons]
    · simp [List.lookup_cons, beq_false_of_ne hk, ih]

lemma lookup_mapUpdate (m : List (String × List String)) (l o u : String) :
    List.lookup u (m.map fun p => if p.1 = l then (p.1, p.2 ++ [o]) else p)
      = if u = l then (List.lookup l m).map (fun w => w ++ [o])
        else List.lookup u m := by
  induction m with
  | nil => simp
  | cons p rest ih =>
    obtain ⟨k, w⟩ := p
    by_cases hkl : k = l
    · subst hkl
      by_cases h : u = k
      · subst h; simp [List.lookup_cons]
      · simp [List.lookup_cons, beq_false_of_ne h, ih, h]
    · by_cases h : u = k
      · subst h
        have hul : u ≠ l := hkl
        simp [List.lookup_cons, hkl, hul]
      · simp [List.lookup_cons, beq_false_of_ne h, hkl, ih,
          beq_false_of_ne (Ne.symm hkl)]

lemma lookup_dictAppend (m : List (String × List String)) (l o u : String) :
    List.lookup u (dictAppend m l o)
      = if u = l then some ((List.lookup l m).getD [] ++ [o])
        else List.lookup u m := by
  unfold dictAppend
  cases hm : List.lookup l m with
  | none =>
    by_cases h : u = l
    · subst h; simp [lookup_append_new m u [o] hm, hm]
    · simp [lookup_append_other m l u [o] h, h]
  | some v =>
    rw [lookup_mapUpdate]
    by_cases h : u = l <;> simp [h, hm]

lemma keys_mapUpdate (m : List (String × List String)) (l o : String) :
    keys (m.map fun p => if p.1 = l then (p.1, p.2 ++ [o]) else p) = keys m := by
  unfold keys
  rw [List.map_map]
  apply List.map_congr_left
  intro p _
  by_cases h : p.1 = l <;> simp [h]

lemma keys_dictAppend (m : List (String × List String)) (l o : String) :
    keys (dictAppend m l o)
      = if (List.lookup l m).isSome then keys m else keys m ++ [l] := by
  unfold dictAppend
  cases hm : List.lookup l m with
  | none => simp [keys, List.map_append]
  | some v => simp [keys_mapUpdate]

lemma keys_dictAppend_nodup (m : List (String × List String)) (l o : String)
    (h : (keys m).Nodup) : (keys (dictAppend m l o)).Nodup := by
  rw [keys_dictAppend]
  cases hm : List.lookup l m with
  | some v => simp [h]
  | none =>
    have hl : l ∉ keys m := (lookup_eq_none_iff l m).mp hm
    simp [List.nodup_append, h, hl]

lemma processOrg_as_foldl (m : List (String × List String)) (org : String)
    (mem : Member) (rest : List Member) :
    processOrg m org (mem :: rest)
      = processOrg (dictAppend m mem.login org) org rest := rfl

lemma lookup_processOrg (m : List (String × List String)) (org : String)
    (members : List Member) (u : String) (hn : (logins members).Nodup) :
    List.lookup u (processOrg m org members)
      = if u ∈ logins members then some ((List.lookup u m).getD [] ++ [org])
        else List.lookup u m := by
  induction members generalizing m with
  | nil => simp [processOrg, logins]
  | cons mem rest ih =>
    have hn2 : mem.login ∉ logins rest ∧ (logins rest).Nodup := by
      simpa [logins] using hn
    rw [processOrg_as_foldl, ih (dictAppend m mem.login org) hn2.2]
    by_cases h : u = mem.login
    · subst h
      simp [logins, hn2.1, lookup_dictAppend]
      intro x hx hxe
      exact hn2.1 (hxe ▸ List.mem_map_of_mem Member.login hx)
    · simp only [logins, List.map_cons, List.mem_cons, h, false_or]
      rw [lookup_dictAppend]
      simp [h, logins]

lemma keys_processOrg_nodup (m : List (String × List String)) (org : String)
    (members : List Member) (h : (keys m).Nodup) :
    (keys (processOrg m org members)).Nodup := by
  induction members generalizing m with
  | nil => simpa [processOrg]
  | cons mem rest ih =>
    rw [processOrg_as_foldl]
    exact ih _ (keys_dictAppend_nodup m mem.login org h)

lemma build_as_foldl (orgMembers : String → List Member) (org : String)
    (rest : List String) (acc : List (String × List String)) :
    (org :: rest).foldl (fun m x => processOrg m x (orgMembers x)) acc
      = rest.foldl (fun m x => processOrg m x (orgMembers x))
          (processOrg acc org (orgMembers org)) := rfl

lemma lookup_build_aux (orgMembers : String → List Member) (u : String)
    (os : List String) :
    ∀ acc : List (String × List String),
      (∀ org ∈ os, (logins (orgMembers org)).Nodup) →
      List.lookup u (os.foldl (fun m org => processOrg m org (orgMembers org)) acc)
        = optExtend (List.lookup u acc)
            (os.filter fun org => (logins (orgMembers org)).contains u) := by
  induction os with
  | nil => intro acc _; simp [optExtend]
  | cons org rest ih =>
    intro acc h
    rw [build_as_foldl, ih _ (fun x hx => h x (List.mem_cons_of_mem _ hx))]
    have hlp := lookup_processOrg acc org (orgMembers org) u
      (h org (List.mem_cons_self _ _))
    by_cases hu : u ∈ logins (orgMembers org)
    · have hcon : (logins (orgMembers org)).contains u = true := by
        simpa [List.contains] using hu
      rw [hlp]
      simp only [hu, if_true, List.filter_cons, hcon]
      cases hrest : (rest.filter fun x => (logins (orgMembers x)).contains u) with
      | nil => simp [optExtend]
      | cons a l => simp [optExtend]
    · have hcon : (logins (orgMembers org)).contains u = false := by
        simp [List.contains]
        simpa using hu
      rw [hlp]
      simp [hu, List.filter_cons, hcon]

lemma lookup_build (orgMembers : String → List Member) (os : List String)
    (u : String) (h : ∀ org ∈ os, (logins (orgMembers org)).Nodup) :
    List.lookup u (build_all_members orgMembers os)
      = optExtend none (os.filter fun org => (logins (orgMembers org)).contains u) := by
  unfold build_all_members
  rw [lookup_build_aux orgMembers u os [] h]
  rfl

lemma keys_build_nodup (orgMembers : String → List Member) (os : List String) :
    (keys (build_all_members orgMembers os)).Nodup := by
  unfold build_all_members
  suffices hgen : ∀ acc : List (String × List String), (keys acc).Nodup →
      (keys (os.foldl (fun m org => processOrg m org (orgMembers org)) acc)).Nodup by
    exact hgen [] (by simp [keys])
  induction os with
  | nil => intro acc hacc; simpa
  | cons org rest ih =>
    intro acc hacc
    rw [build_as_foldl]
    exact ih _ (keys_processOrg_nodup acc org (orgMembers org) hacc)

/-! Lemmas about the stable descending sort of line 135. -/

lemma insertDesc_filter (x : String × PyDatetime × List String)
    (l : List (String × PyDatetime × List String)) (k : Int) :
    (insertDesc x l).filter (fun y => actKey y == k)
      = if actKey x == k then x :: l.filter (fun y => actKey y == k)
        else l.filter (fun y => actKey y == k) := by
  induction l with
  | nil =>
    by_cases h : actKey x == k <;> simp [insertDesc, h]
  | cons y ys ih =>
    unfold insertDesc
    by_cases hle : actKey y ≤ actKey x
    · simp only [if_pos hle]
      by_cases hx : (actKey x == k) = true <;> simp [List.filter_cons, hx]
    · simp only [if_neg hle]
      by_cases hy : (actKey y == k) = true
      · by_cases hx : (actKey x == k) = true
        · exfalso
          have h1 : actKey y = k := by simpa using hy
          have h2 : actKey x = k := by simpa using hx
          exact hle (by rw [h1, h2])
        · simp [List.filter_cons, hy, hx, ih]
      · simp [List.filter_cons, hy, ih]

lemma insertDesc_chain (x : String × PyDatetime × List String)
    (l : List (String × PyDatetime × List String))
    (h : List.Chain' (fun a b => actKey b ≤ actKey a) l) :
    List.Chain' (fun a b => actKey b ≤ actKey a) (insertDesc x l) := by
  induction l with
  | nil => simp [insertDesc]
  | cons y ys ih =>
    unfold insertDesc
    by_cases hle : actKey y ≤ actKey x
    · simp only [if_pos hle]
      rw [List.chain'_cons']
      exact ⟨fun w hw => by simp at hw; rw [← hw]; exact hle, h⟩
    · simp only [if_neg hle]
      have hxy : actKey x ≤ actKey y := (not_le.mp hle).le
      cases ys with
      | nil => simp [insertDesc, hxy]
      | cons z zs =>
        rw [List.chain'_cons] at h
        have hins := ih h.2
        rw [List.chain'_cons']
        refine ⟨?_, hins⟩
        intro w hw
        unfold insertDesc at hw
        by_cases hzx : actKey z ≤ actKey x
        · simp only [if_pos hzx, List.head?_cons, Option.mem_def,
            Option.some.injEq] at hw
          rw [← hw]; exact hxy
        · simp only [if_neg hzx, List.head?_cons, Option.mem_def,
            Option.some.injEq] at hw
          rw [← hw]; exact h.1

lemma sortDesc_chain (l : List (String × PyDatetime × List String)) :
    List.Chain' (fun a b => actKey b ≤ actKey a) (sortDesc l) := by
  induction l with
  | nil => simp [sortDesc]
  | cons a l ih => exact insertDesc_chain a (sortDesc l) ih

lemma sortDesc_filter (l : List (String × PyDatetime × List String)) (k : Int) :
    (sortDesc l).filter (fun y => actKey y == k)
      = l.filter (fun y => actKey y == k) := by
  induction l with
  | nil => simp [sortDesc]
  | cons a l ih =>
    show (insertDesc a (sortDesc l)).filter (fun y => actKey y == k) = _
    rw [insertDesc_filter]
    by_cases h : (actKey a == k) = true <;> simp [List.filter_cons, h, ih]

lemma insertDesc_perm (x : String × PyDatetime × List String)
    (l : List (String × PyDatetime × List String)) :
    List.Perm (insertDesc x l) (x :: l) := by
  induction l with
  | nil => simp [insertDesc]
  | cons y ys ih =>
    unfold insertDesc
    by_cases hle : actKey y ≤ actKey x
    · simp [if_pos hle]
    · simp only [if_neg hle]
      exact (ih.cons y).trans (List.Perm.swap x y ys)

lemma sortDesc_perm (l : List (String × PyDatetime × List String)) :
    List.Perm (sortDesc l) l := by
  induction l with
  | nil => simp [sortDesc]
  | cons a l ih => exact (insertDesc_perm a (sortDesc l)).trans (ih.cons a)

lemma trace_mem_first (fetch : Nat → Option (List Member)) (page fuel : Nat)
    (h : 1 ≤ fuel) : page ∈ (get_org_members_trace fetch page fuel).2 := by
  obtain ⟨f, rfl⟩ : ∃ f, fuel = f + 1 := ⟨fuel - 1, by omega⟩
  unfold get_org_members_trace
  cases hf : fetch page with
  | none => simp
  | some ms => cases ms <;> simp

lemma abort_run (o : Oracles) (rd : RateData) (fuel : Nat) (now : Int)
    (hr : o.rate = some rd) (hq : rd.remaining < 10) :
    runMain o fuel now = .ok ⟨true, true, [Request.rateLimit], [], [], []⟩ := by
  have hw : rateWarned o = true := by
    simp [rateWarned, hr]; omega
  have ha : rateAborted o = true := by
    simp [rateAborted, hr]; omega
  unfold runMain runMainSched
  rw [ha, hw]
  simp

/-! Claim theorems. -/

/-- C2: for an organization whose member list spans several pages, the
enumerator requests successive pages starting at page 1 (each page request
carrying `per_page=100`), returns the concatenation of all pages, and
pagination halts exactly at the first page that returns an empty list. -/
theorem get_org_members_unions_pages (L : List (List Member))
    (fetch : Nat → Option (List Member)) (fuel : Nat)
    (hpages : ∀ i, i < L.length → fetch (1 + i) = L[i]?)
    (hne : ∀ l ∈ L, l ≠ [])
    (hempty : fetch (1 + L.length) = some [])
    (hfuel : L.length + 1 ≤ fuel) :
    get_org_members fetch fuel = L.flatten
    ∧ (get_org_members_trace fetch 1 fuel).2 = List.range' 1 (L.length + 1)
    ∧ ∀ org p, memberPageURL org p
        = "https://api.github.com/orgs/" ++ org ++ "/members?page="
          ++ toString p ++ "&per_page=100" := by
  have h := trace_pages L fetch 1 fuel hpages hne (Or.inr hempty) hfuel
  exact ⟨by unfold get_org_members; rw [h], by rw [h], fun org p => rfl⟩

theorem get_org_members_unions_pages_witness :
    get_org_members
        (fun p => if p = 1 then some [⟨"a"⟩] else
          if p = 2 then some [⟨"b"⟩] else some []) 3
      = [⟨"a"⟩, ⟨"b"⟩]
    ∧ (get_org_members_trace
        (fun p => if p = 1 then some [⟨"a"⟩] else
          if p = 2 then some [⟨"b"⟩] else some []) 1 3).2
      = [1, 2, 3] := by
  have h := get_org_members_unions_pages [[⟨"a"⟩], [⟨"b"⟩]]
    (fun p => if p = 1 then some [⟨"a"⟩] else
      if p = 2 then some [⟨"b"⟩] else some []) 3
    (by decide) (by decide) (by decide) (by decide)
  exact ⟨h.1, h.2.1⟩

/-- C3: when the rate-limit check succeeds with remaining quota strictly
below 10, the run aborts right after the check: the only request ever
issued is the rate-limit request itself — no member-listing page and no
per-user events request. -/
theorem low_quota_aborts (o : Oracles) (rd : RateData) (fuel : Nat)
    (now : Int) (hr : o.rate = some rd) (hq : rd.remaining < 10) :
    runMain o fuel now = .ok ⟨true, true, [Request.rateLimit], [], [], []⟩
    ∧ ∀ r : RunResult, runMain o fuel now = .ok r →
        ∀ q ∈ r.requests, q = Request.rateLimit := by
  have h1 := abort_run o rd fuel now hr hq
  refine ⟨h1, fun r hrr q hq2 => ?_⟩
  rw [h1] at hrr
  have : r = ⟨true, true, [Request.rateLimit], [], [], []⟩ := by
    simpa using hrr.symm
  subst this
  simpa using hq2

theorem low_quota_aborts_witness :
    runMain lowQuotaOracle 3 0
      = .ok ⟨true, true, [Request.rateLimit], [], [], []⟩ :=
  (low_quota_aborts lowQuotaOracle ⟨5, 0⟩ 3 0 rfl (by decide)).1

/-- C4: if a member-listing page fails with a non-success status after
earlier pages succeeded, the enumeration of that organization stops there
and returns exactly the members of the successful pages (the failing page
is the last one requested); no exception propagates — `get_org_members`
returns normally — and a non-aborted run still requests page 1 of every
configured organization, so processing continues with the remaining
organizations. -/
theorem org_error_keeps_partial_members :
    (∀ (L : List (List Member)) (fetch : Nat → Option (List Member)) (fuel : Nat),
      (∀ i, i < L.length → fetch (1 + i) = L[i]?) →
      (∀ l ∈ L, l ≠ []) →
      fetch (1 + L.length) = none →
      L.length + 1 ≤ fuel →
      get_org_members fetch fuel = L.flatten
        ∧ (get_org_members_trace fetch 1 fuel).2 = List.range' 1 (L.length + 1))
    ∧ (∀ (o : Oracles) (fuel : Nat) (now : Int) (r : RunResult),
        runMain o fuel now = .ok r → r.aborted = false → 1 ≤ fuel →
        ∀ org ∈ orgs, Request.orgMembersPage org 1 ∈ r.requests) := by
  constructor
  · intro L fetch fuel hpages hne herr hfuel
    have h := trace_pages L fetch 1 fuel hpages hne (Or.inl herr) hfuel
    exact ⟨by unfold get_org_members; rw [h], by rw [h]⟩
  · intro o fuel now r hok hab hfuel org horg
    rcases runMain_ok_cases o fuel now r hok with ⟨_, rfl⟩ | ⟨_, _, rfl⟩
    · simp at hab
    · show Request.orgMembersPage org 1 ∈ mainRequests o fuel
      unfold mainRequests enumRequests
      refine List.mem_cons_of_mem _ (List.mem_append_left _ ?_)
      refine List.mem_flatMap.mpr ⟨org, horg, ?_⟩
      exact List.mem_map_of_mem _ (trace_mem_first _ 1 fuel hfuel)

theorem org_error_keeps_partial_members_witness :
    get_org_members
        (fun p => if p = 1 then some [⟨"a"⟩] else none) 2 = [⟨"a"⟩]
    ∧ (get_org_members_trace
        (fun p => if p = 1 then some [⟨"a"⟩] else none) 1 2).2 = [1, 2]
    ∧ Request.orgMembersPage "ipython" 1
        ∈ (mainRequests sampleOracle 3) := by
  have h1 := org_error_keeps_partial_members.1 [[⟨"a"⟩]]
    (fun p => if p = 1 then some [⟨"a"⟩] else none) 2
    (by decide) (by decide) (by decide) (by decide)
  refine ⟨h1.1, h1.2, ?_⟩
  have h2 := org_error_keeps_partial_members.2 sampleOracle 3 0
    ⟨false, false, mainRequests sampleOracle 3, canonGathered sampleOracle 3,
     sortDesc (canonGathered sampleOracle 3),
     (sortDesc (canonGathered sampleOracle 3)).map (lineOf 0)⟩
    (by decide) rfl (by decide) "ipython" (by decide)
  simpa using h2

/-- C8: when the rate-limit request itself returns a non-success status,
the check is skipped silently — no warning, no abort — and the run issues
the same enumeration and fetch requests as a healthy-quota run; by
contrast, a successfully read quota below 10 is a hard stop. -/
theorem rate_check_fails_open (o : Oracles) (fuel : Nat) (now : Int)
    (hr : o.rate = none) :
    rateWarned o = false ∧ rateAborted o = false
    ∧ runMain o fuel now = runMain { o with rate := some ⟨100, 0⟩ } fuel now
    ∧ ∀ rd : RateData, rd.remaining < 10 →
        runMain { o with rate := some rd } fuel now
          = .ok ⟨true, true, [Request.rateLimit], [], [], []⟩ := by
  obtain ⟨orate, omp, oev⟩ := o
  simp only [Oracles.rate] at hr
  subst hr
  exact ⟨rfl, rfl, rfl, fun rd hrd => abort_run _ rd fuel now rfl hrd⟩

theorem rate_check_fails_open_witness :
    runMain noRateOracle 3 0
      = runMain { noRateOracle with rate := some ⟨100, 0⟩ } 3 0 :=
  (rate_check_fails_open noRateOracle 3 0 rfl).2.2.1

lemma canonGathered_mem (o : Oracles) (fuel : Nat)
    (t : String × PyDatetime × List String) (ht : t ∈ canonGathered o fuel) :
    t.1 ∈ usernamesRun o fuel
    ∧ exceptValue (get_user_activity (o.events t.1)) = some t.2.1
    ∧ t.2.2 = (List.lookup t.1 (allMembersRun o fuel)).getD [] := by
  unfold canonGathered at ht
  obtain ⟨u, hu, hmatch⟩ := List.mem_filterMap.mp ht
  cases hE : exceptValue (get_user_activity (o.events u)) with
  | none => rw [hE] at hmatch; simp at hmatch
  | some dt =>
    rw [hE] at hmatch
    simp only [Option.some.injEq] at hmatch
    rw [← hmatch]
    exact ⟨hu, by simp [hE], rfl⟩

lemma usernamesRun_nodup (o : Oracles) (fuel : Nat) :
    (usernamesRun o fuel).Nodup :=
  keys_build_nodup _ orgs

lemma canonGathered_fst_sublist (o : Oracles) (fuel : Nat) :
    List.Sublist ((canonGathered o fuel).map Prod.fst) (usernamesRun o fuel) := by
  unfold canonGathered
  generalize usernamesRun o fuel = us
  induction us with
  | nil => simp
  | cons u rest ih =>
    rw [List.filterMap_cons]
    cases hE : exceptValue (get_user_activity (o.events u)) with
    | none => exact ih.cons u
    | some dt => simpa using ih.cons₂ u

/-- C5: a user whose events lookup returns a non-success status, or
succeeds with an empty event list, produces no activity record (the
fetcher returns `None`) and is omitted from the final report. -/
theorem no_activity_user_omitted (o : Oracles) (fuel : Nat) (now : Int)
    (u : String) (r : RunResult)
    (hu : o.events u = none ∨ o.events u = some [])
    (h : runMain o fuel now = .ok r) :
    get_user_activity (o.events u) = .ok none
    ∧ u ∉ r.report.map Prod.fst
    ∧ u ∉ r.lines.map Prod.fst := by
  have hga : get_user_activity (o.events u) = .ok none := by
    rcases hu with h1 | h1 <;> rw [h1] <;> rfl
  refine ⟨hga, ?_⟩
  rcases runMain_ok_cases o fuel now r h with ⟨_, rfl⟩ | ⟨_, _, rfl⟩
  · simp
  · have hnot : u ∉ (canonGathered o fuel).map Prod.fst := by
      intro hmem
      obtain ⟨t, ht, hfst⟩ := List.mem_map.mp hmem
      have hm := (canonGathered_mem o fuel t ht).2.1
      rw [hfst, hga] at hm
      simp [exceptValue] at hm
    have hperm : List.Perm ((sortDesc (canonGathered o fuel)).map Prod.fst)
        ((canonGathered o fuel).map Prod.fst) :=
      (sortDesc_perm _).map _
    have hrep : u ∉ (sortDesc (canonGathered o fuel)).map Prod.fst :=
      fun hmem => hnot (hperm.mem_iff.mp hmem)
    refine ⟨hrep, ?_⟩
    show u ∉ ((sortDesc (canonGathered o fuel)).map (lineOf now)).map Prod.fst
    have hline : ((sortDesc (canonGathered o fuel)).map (lineOf now)).map Prod.fst
        = (sortDesc (canonGathered o fuel)).map Prod.fst := by
      rw [List.map_map]; rfl
    rw [hline]
    exact hrep

theorem no_activity_user_omitted_witness :
    get_user_activity (emptyEventsOracle.events "u2") = .ok none
    ∧ "u2" ∉ (sortDesc (canonGathered emptyEventsOracle 3)).map Prod.fst := by
  have h := no_activity_user_omitted emptyEventsOracle 3 0 "u2"
    ⟨false, false, mainRequests emptyEventsOracle 3,
     canonGathered emptyEventsOracle 3,
     sortDesc (canonGathered emptyEventsOracle 3),
     (sortDesc (canonGathered emptyEventsOracle 3)).map (lineOf 0)⟩
    (Or.inr (by decide)) (by decide)
  exact ⟨h.1, h.2.1⟩

/-- C9: the dict keys are unique, so a non-aborted run issues exactly one
events request per unique username, and every username appears at most
once among the sorted report entries and the printed lines. -/
theorem one_line_per_username (o : Oracles) (fuel : Nat) (now : Int)
    (r : RunResult) (h : runMain o fuel now = .ok r) :
    (r.requests.filterMap (fun q => match q with
        | Request.userEvents u => some u
        | _ => none)).Nodup
    ∧ (r.report.map Prod.fst).Nodup
    ∧ (r.lines.map Prod.fst).Nodup := by
  rcases runMain_ok_cases o fuel now r h with ⟨_, rfl⟩ | ⟨_, _, rfl⟩
  · simp
  · refine ⟨?_, ?_, ?_⟩
    · show (List.filterMap _ (mainRequests o fuel)).Nodup
      unfold mainRequests
      rw [List.filterMap_cons, List.filterMap_append]
      have henum : (enumRequests o fuel).filterMap (fun q => match q with
          | Request.userEvents u => some u
          | _ => none) = [] := by
        apply List.filterMap_eq_nil_iff.mpr
        intro q hq
        unfold enumRequests at hq
        obtain ⟨org, _, hq2⟩ := List.mem_flatMap.mp hq
        obtain ⟨p, _, rfl⟩ := List.mem_map.mp hq2
        rfl
      have hmap : ((usernamesRun o fuel).map Request.userEvents).filterMap
          (fun q => match q with
            | Request.userEvents u => some u
            | _ => none) = usernamesRun o fuel := by
        rw [List.filterMap_map]
        exact List.filterMap_some (usernamesRun o fuel)
      simp only [henum, hmap]
      simpa using usernamesRun_nodup o fuel
    · have hn : ((canonGathered o fuel).map Prod.fst).Nodup :=
        (canonGathered_fst_sublist o fuel).nodup (usernamesRun_nodup o fuel)
      exact (((sortDesc_perm (canonGathered o fuel)).map Prod.fst).nodup_iff).mpr hn
    · have hn : ((canonGathered o fuel).map Prod.fst).Nodup :=
        (canonGathered_fst_sublist o fuel).nodup (usernamesRun_nodup o fuel)
      have hn2 : ((sortDesc (canonGathered o fuel)).map Prod.fst).Nodup :=
        (((sortDesc_perm (canonGathered o fuel)).map Prod.fst).nodup_iff).mpr hn
      show (((sortDesc (canonGathered o fuel)).map (lineOf now)).map Prod.fst).Nodup
      have hline : ((sortDesc (canonGathered o fuel)).map (lineOf now)).map Prod.fst
          = (sortDesc (canonGathered o fuel)).map Prod.fst := by
        rw [List.map_map]; rfl
      rw [hline]
      exact hn2

theorem one_line_per_username_witness :
    ((mainRequests sampleOracle 3).filterMap (fun q => match q with
        | Request.userEvents u => some u
        | _ => none)).Nodup
    ∧ ((sortDesc (canonGathered sampleOracle 3)).map Prod.fst).Nodup := by
  have h := one_line_per_username sampleOracle 3 0
    ⟨false, false, mainRequests sampleOracle 3, canonGathered sampleOracle 3,
     sortDesc (canonGathered sampleOracle 3),
     (sortDesc (canonGathered sampleOracle 3)).map (lineOf 0)⟩ (by decide)
  exact ⟨h.1, h.2.1⟩

/-- C10: the run is deterministic: with the responses and the current
instant fixed, any two completion schedules that let every activity task
finish produce identical outcomes — the same report lines in the same
order. -/
theorem main_deterministic (o : Oracles) (fuel : Nat) (now : Int)
    (s1 s2 : List Nat)
    (h1 : ∀ i, i < (usernamesRun o fuel).length → i ∈ s1)
    (h2 : ∀ i, i < (usernamesRun o fuel).length → i ∈ s2) :
    runMainSched o fuel now s1 = runMainSched o fuel now s2 := by
  rw [runMainSched_canon o fuel now s1 h1, runMainSched_canon o fuel now s2 h2]

theorem main_deterministic_witness :
    runMainSched sampleOracle 3 0 [1, 0] = runMainSched sampleOracle 3 0 [0, 1] :=
  main_deterministic sampleOracle 3 0 [1, 0] [0, 1] (by decide) (by decide)

/-- C7: the printed per-user lines are ordered non-increasingly by
activity timestamp, and the sort of line 135 is stable: entries with
equal timestamps keep the relative order of the gathered input (which
follows username iteration order). -/
theorem report_sorted_stably (o : Oracles) (fuel : Nat) (now : Int)
    (r : RunResult) (h : runMain o fuel now = .ok r) :
    r.report = sortDesc r.gathered
    ∧ List.Chain' (fun a b => actKey b ≤ actKey a) r.report
    ∧ (∀ k : Int, r.report.filter (fun y => actKey y == k)
        = r.gathered.filter (fun y => actKey y == k))
    ∧ List.Perm r.report r.gathered
    ∧ r.lines = r.report.map (lineOf now) := by
  rcases runMain_ok_cases o fuel now r h with ⟨_, rfl⟩ | ⟨_, _, rfl⟩
  · exact ⟨rfl, by simp, fun k => rfl, List.Perm.refl _, rfl⟩
  · exact ⟨rfl, sortDesc_chain _, fun k => sortDesc_filter _ k,
      sortDesc_perm _, rfl⟩

theorem report_sorted_stably_witness :
    List.Chain' (fun a b => actKey b ≤ actKey a)
        (sortDesc (canonGathered sampleOracle 3))
    ∧ (sortDesc (canonGathered sampleOracle 3)).filter
          (fun y => actKey y == dtInstant sampleDt)
        = (canonGathered sampleOracle 3).filter
          (fun y => actKey y == dtInstant sampleDt) := by
  have h := report_sorted_stably sampleOracle 3 0
    ⟨false, false, mainRequests sampleOracle 3, canonGathered sampleOracle 3,
     sortDesc (canonGathered sampleOracle 3),
     (sortDesc (canonGathered sampleOracle 3)).map (lineOf 0)⟩ (by decide)
  exact ⟨h.2.1, h.2.2.1 (dtInstant sampleDt)⟩

/-! String-normalization lemmas for the `created_at` timestamps. -/

lemma replaceZ_no_z (l : List Char) (h : 'Z' ∉ l) :
    (l.flatMap fun c => if c = 'Z' then "+00:00".toList else [c]) = l := by
  induction l with
  | nil => rfl
  | cons c cs ih =>
    have hc : c ≠ 'Z' := fun he => h (he ▸ List.mem_cons_self c cs)
    have hcs : 'Z' ∉ cs := fun he => h (List.mem_cons_of_mem c he)
    rw [List.flatMap_cons, if_neg hc, ih hcs]
    rfl

lemma replaceZ_push_z (base : String) (h : 'Z' ∉ base.toList) :
    replaceZ (base.push 'Z') = base ++ "+00:00" := by
  obtain ⟨bl⟩ := base
  unfold replaceZ
  show String.mk ((bl ++ ['Z']).flatMap _) = _
  rw [List.flatMap_append, replaceZ_no_z bl h]
  rfl

lemma replaceTrailingZ_push (base : String) :
    replaceTrailingZ (base.push 'Z') = base ++ "+00:00" := by
  obtain ⟨bl⟩ := base
  unfold replaceTrailingZ
  have h1 : (String.push ⟨bl⟩ 'Z').toList = bl ++ ['Z'] := rfl
  rw [h1, List.getLast?_concat, List.dropLast_concat]
  simp
  rfl

lemma fromisoformat_offset (base : String) (dt : PyDatetime)
    (hlen : base.toList.length = 19)
    (h : fromisoformat (base ++ "+00:00") = some dt) :
    dt.tzOffsetMinutes = some 0 := by
  unfold fromisoformat at h
  split at h
  case _ y1 y2 y3 y4 mo1 mo2 d1 d2 hh1 hh2 mi1 mi2 s1 s2 rest heq =>
    have hr1 : List.drop 19 ((base ++ "+00:00").toList) = rest := by
      rw [heq]; rfl
    have hr2 : List.drop 19 ((base ++ "+00:00").toList) = "+00:00".toList := by
      rw [show (base ++ "+00:00").toList = base.toList ++ "+00:00".toList from rfl,
        ← hlen, List.drop_left]
    have hrest : rest = "+00:00".toList := hr1.symm.trans hr2
    subst hrest
    rw [show parseTz "+00:00".toList = some (some 0) from rfl] at h
    simp only [Option.bind_eq_bind, Option.bind_eq_some, Option.pure_def,
      Option.some.injEq] at h
    obtain ⟨y, hy, mo, hmo, d, hd2, hh, hhh, mi, hmi, se, hse, tz, htz, hfin⟩ := h
    obtain rfl : tz = some 0 := by simpa using htz.symm
    split at hfin
    · simp only [Option.some.injEq] at hfin
      rw [← hfin]
    · exact absurd hfin (by simp)
  case _ => exact absurd h (by simp)

/-- C1 counterexample: a login that occurs on two pages of one
organization and once in a second organization belongs to two or more
configured organizations, yet the aggregation loop of lines 116-119
appends the first organization twice, so its organization list contains a
duplicate — the loop never checks whether the organization is already
recorded for that user. -/
theorem member_orgs_dup_counterexample :
    get_org_members (fun p => if p ≤ 2 then some [⟨"u"⟩] else some []) 4
      = [⟨"u"⟩, ⟨"u"⟩]
    ∧ build_all_members
        (fun org => if org = "A" then [⟨"u"⟩, ⟨"u"⟩] else [⟨"u"⟩])
        ["A", "B"]
      = [("u", ["A", "A", "B"])]
    ∧ ¬ (["A", "A", "B"] : List String).Nodup := by decide

/-- C1 amended: provided every login occurs at most once within each
organization's (page-concatenated) member list — which is the only
situation the platform produces — the mapping associates each username
with exactly the organizations in which it appeared, in processing order
and without duplicate entries; if a login does repeat inside one
organization's listing, that organization is appended once per
occurrence. -/
theorem member_orgs_exact (orgMembers : String → List Member)
    (os : List String) (u : String)
    (hn : ∀ org ∈ os, (logins (orgMembers org)).Nodup)
    (hos : os.Nodup) :
    List.lookup u (build_all_members orgMembers os)
      = optExtend none
          (os.filter fun org => (logins (orgMembers org)).contains u)
    ∧ (os.filter fun org => (logins (orgMembers org)).contains u).Nodup :=
  ⟨lookup_build orgMembers os u hn, hos.filter _⟩

theorem member_orgs_exact_witness :
    List.lookup "u" (build_all_members
        (fun org => if org = "A" then [⟨"u"⟩, ⟨"v"⟩] else [⟨"u"⟩]) ["A", "B"])
      = some ["A", "B"]
    ∧ (List.filter
        (fun org => (logins ((fun org => if org = "A"
          then ([⟨"u"⟩, ⟨"v"⟩] : List Member) else [⟨"u"⟩]) org)).contains "u")
        ["A", "B"]).Nodup := by
  have h := member_orgs_exact
    (fun org => if org = "A" then [⟨"u"⟩, ⟨"v"⟩] else [⟨"u"⟩])
    ["A", "B"] "u" (by decide) (by decide)
  exact ⟨h.1.trans (by decide), h.2⟩

/-- C6: for a user whose events lookup succeeds with a non-empty list,
the activity record's timestamp is the parse of the first event's
`created_at` only (any later events are ignored); the code's
replace-every-`Z` normalization coincides with replacing the trailing
`Z` by `+00:00` whenever `Z` occurs only as the final character, and the
instant parsed from the normalized 19-character timestamp carries the
explicit `+00:00` offset, i.e. is timezone-aware. -/
theorem first_event_timestamp (e : Event) (es : List Event) (base : String)
    (hc : e.created_at = base.push 'Z') (hz : 'Z' ∉ base.toList) :
    get_user_activity (some (e :: es)) = get_user_activity (some [e])
    ∧ replaceZ e.created_at = replaceTrailingZ e.created_at
    ∧ get_user_activity (some (e :: es))
        = (match fromisoformat (base ++ "+00:00") with
           | some dt => .ok (some dt)
           | none => .error ())
    ∧ (∀ dt : PyDatetime, base.toList.length = 19 →
        fromisoformat (base ++ "+00:00") = some dt →
        dt.tzOffsetMinutes = some 0) := by
  have h1 : replaceZ e.created_at = base ++ "+00:00" := by
    rw [hc]; exact replaceZ_push_z base hz
  have h2 : replaceTrailingZ e.created_at = base ++ "+00:00" := by
    rw [hc]; exact replaceTrailingZ_push base
  refine ⟨rfl, h1.trans h2.symm, ?_,
    fun dt hlen hp => fromisoformat_offset base dt hlen hp⟩
  show (match fromisoformat (replaceZ e.created_at) with
        | some dt => Except.ok (some dt)
        | none => Except.error ()) = _
  rw [h1]

theorem first_event_timestamp_witness :
    get_user_activity
        (some [⟨"2024-01-02T03:04:05Z"⟩, ⟨"1999-01-01T00:00:00Z"⟩])
      = .ok (some sampleDt)
    ∧ sampleDt.tzOffsetMinutes = some 0 := by
  have h := first_event_timestamp ⟨"2024-01-02T03:04:05Z"⟩
    [⟨"1999-01-01T00:00:00Z"⟩] "2024-01-02T03:04:05" rfl (by decide)
  constructor
  · rw [h.2.2.1]; decide
  · exact h.2.2.2 sampleDt (by decide) (by decide)

end LastUserActivity
